import Mathlib

/-!
Verification of the image reconciliation logic of the `podman_image` module.

Python strings are modelled as lists of characters (`Str`). Fallible code paths
(`fail_json`, uncaught exceptions such as `IndexError`/`TypeError`) are
modelled with `Option`, `none` meaning the run aborted. External tool
responses are supplied by a fixed oracle (`Env`); the mutable `results`
dictionary and the audit trail of actually executed commands are threaded as
an explicit state (`PState`).
-/

abbrev Str := List Char

/-- Convenience conversion from a Lean string literal to the `List Char` model. -/
def str (s : String) : Str := s.data

/-- Python `s.startswith(p)`: does `p` start the list `s`? -/
def startsList : Str → Str → Bool
  | [], _ => true
  | _ :: _, [] => false
  | a :: as, b :: bs => a == b && startsList as bs

/-- Python `nd in hay` for strings: contiguous substring test. -/
def isSub (nd : Str) : Str → Bool
  | [] => nd.isEmpty
  | c :: cs => startsList nd (c :: cs) || isSub nd cs

/-- Python `s.rsplit(sep, 1)` when it actually splits: cut at the LAST
occurrence of `sep`; `none` when `sep` does not occur. -/
def rsplitOnce (sep : Char) : Str → Option (Str × Str)
  | [] => none
  | c :: cs =>
    match rsplitOnce sep cs with
    | some (l, r) => some (c :: l, r)
    | none => if c = sep then some ([], cs) else none

/-- `line.rsplit(split_on, 1)[1]`: the part after the last occurrence of the
separator; `none` models the IndexError raised when the separator is absent. -/
def rsplitGet1 (sep : Char) (line : Str) : Option Str :=
  (rsplitOnce sep line).map (fun p => p.2)

/-- Accumulator for `splitlines`: `cur` holds the current line reversed. -/
def splitlinesAux (cur : Str) : Str → List Str
  | [] => [cur.reverse]
  | c :: cs =>
    if c = '\n' then
      cur.reverse :: (match cs with | [] => [] | _ :: _ => splitlinesAux [] cs)
    else splitlinesAux (c :: cur) cs

/-- Python `str.splitlines()` for newline-separated text: a trailing newline
does not produce a final empty element, but interior blank lines (and a
doubled trailing newline) do produce empty elements. -/
def splitlines : Str → List Str
  | [] => []
  | c :: cs => splitlinesAux [] (c :: cs)

/-- Python truthiness of an optional string: `None` and `""` are falsy. -/
def optTruthy : Option Str → Bool
  | none => false
  | some s => !s.isEmpty

/-- `parse_repository_tag` (module source, bottom of file): split on the
rightmost `@` (digest wins); else on the rightmost `:` provided the right
part has no `/`; else no tag. -/
def parse_repository_tag (repo_name : Str) : Str × Option Str :=
  match rsplitOnce '@' repo_name with
  | some (l, r) => (l, some r)
  | none =>
    match rsplitOnce ':' repo_name with
    | some (l, r) => if '/' ∈ r then (repo_name, none) else (l, some r)
    | none => (repo_name, none)

/-- The marker that makes a tag value count as a digest. -/
def sha256marker : Str := str "sha256"

/-- Qualified image name: `name` and `tag` joined with `@` when the tag
contains "sha256" and with `:` otherwise (`__init__`, lines 488-489). -/
def image_name_of (name tag : Str) : Str :=
  if isSub sha256marker tag then name ++ '@' :: tag else name ++ ':' :: tag

/-- Name/tag resolution in `__init__` (lines 483-489): parse the raw name;
the parsed tag overrides the configured tag only when it is truthy
(neither None nor empty), mirroring Python's `if repo_tag:` guard. -/
def resolveImageName (rawName cfgTag : Str) : Str :=
  match parse_repository_tag rawName with
  | (repo, repo_tag) =>
    if optTruthy repo_tag then image_name_of repo (repo_tag.getD [])
    else image_name_of rawName cfgTag

/-- The per-line filter of `_get_id_from_output`:
`startswith and line.startswith(startswith) or contains and contains in line`. -/
def lineMatches (sw co : Option Str) (line : Str) : Bool :=
  (optTruthy sw && startsList (sw.getD []) line) ||
  (optTruthy co && isSub (co.getD []) line)

/-- The collection loop of `_get_id_from_output`: for each matching line take
`line.rsplit(split_on, 1)[1]`; `none` models the IndexError raised on a
matching line without the separator. -/
def collectIds (sep : Char) : List Str → Option (List Str)
  | [] => some []
  | l :: ls =>
    match rsplitGet1 sep l with
    | none => none
    | some tok => (collectIds sep ls).map (fun toks => tok :: toks)

/-- `_get_id_from_output` (lines 512-523), with `maxsplit` fixed at its
default 1, the only value the module uses. When no line matches, the raw
`splitlines` list is the candidate list; the final `[-1]` indexing is
`getLast?` (`none` models the IndexError on an empty log). -/
def getIdFromOutput (lines : Str) (sw co : Option Str) (sep : Char) : Option Str :=
  let ls := splitlines lines
  match collectIds sep (ls.filter (fun l => lineMatches sw co l)) with
  | none => none
  | some ids => (if ids.isEmpty then ls else ids).getLast?

/-- Destination base plus name/tag suffixing (`push_image`, lines 785-792). -/
def compute_dest (destArg : Option Str) (name tag image_name : Str) : Str :=
  let dest := destArg.getD image_name
  if '/' ∉ image_name then dest ++ '/' :: (name ++ ':' :: tag)
  else dest ++ '/' :: image_name

/-- The literal "docker-daemon". -/
def dockerDaemon : Str := str "docker-daemon"

/-- Transport wrapping (`push_image`, lines 794-805). -/
def apply_transport (transport : Option Str) (name dest : Str) : Str :=
  if optTruthy transport then
    let t := transport.getD []
    if t = str "docker" then t ++ str "://" ++ dest
    else if t = str "ostree" then t ++ ':' :: name ++ '@' :: dest
    else if t = dockerDaemon ∧ ':' ∉ dest then t ++ ':' :: dest ++ str ":latest"
    else t ++ ':' :: dest
  else dest

/-- The full destination computation of `push_image`. -/
def dest_string_of (destArg transport : Option Str) (name tag image_name : Str) : Str :=
  apply_transport transport name (compute_dest destArg name tag image_name)

/-- The destination validation test (`push_image`, line 807): the module
fails when the destination has no `/`, no `@` and no "docker-daemon". -/
def destInvalid (ds : Str) : Bool :=
  decide ('/' ∉ ds) && decide ('@' ∉ ds) && !(isSub dockerDaemon ds)

/-! ## The reconciliation engine -/

/-- One record of the tool's JSON output; only the fields the engine reads:
the `Architecture` key and the `Digest` / `digest` keys (either may be
absent). -/
structure PRec where
  architecture : Str
  digestCap : Option Str
  digestLow : Option Str
deriving DecidableEq, Repr

/-- `image[0].get('Digest', image[0].get('digest'))`. -/
def getDigest (r : PRec) : Option Str := r.digestCap.or r.digestLow

/-- The podman invocations the module can actually execute through
`run_podman_command`. -/
inductive Cmd
  | imageLs
  | imageExists
  | inspectCmd
  | imageLsQuiet
  | pullCmd
  | buildCmd
  | pushCmd
  | rmiCmd
deriving DecidableEq, Repr

/-- Fixed oracle for the external tool's responses. `lsOk` and `inspectOk`
also cover JSON decoding of the respective outputs. -/
structure Env where
  lsOk : Bool
  lsImages : List PRec
  existsRc0 : Bool
  inspectOk : Bool
  inspectJson : List PRec
  pullRc0 : Bool
  buildRc0 : Bool
  buildOut : Str
  pushRc0 : Bool
  pushOut : Str
  rmiRc0 : Bool
  lsQuietRaw : Str
deriving DecidableEq, Repr

/-- The desired states dispatched in `__init__` (the quadlet state delegates
to a collaborator outside this module's source and is not modelled). -/
inductive DesiredState
  | present
  | build
  | absent
deriving DecidableEq, Repr

/-- The module parameters the reconciliation flow reads, after the name/tag
resolution of `__init__`. -/
structure Params where
  name : Str
  tag : Str
  state : DesiredState
  force : Bool
  pushReq : Bool
  path : Option Str
  buildFile : Option Str
  checkMode : Bool
  arch : Option Str
  pushDest : Option Str
  pushTransport : Option Str
deriving DecidableEq, Repr

/-- `self.image_name` as computed in `__init__`. -/
def Params.imageName (p : Params) : Str := image_name_of p.name p.tag

/-- The possible values of `results['image']`: the initial empty dict, that
dict after `absent` stamped `state='Deleted'` into it, an assigned record
list, or an assigned Python `None`. -/
inductive ImgVal
  | emptyDict
  | deletedDict
  | records (l : List PRec)
  | null
deriving DecidableEq, Repr

/-- Python truthiness of a `results['image']` value. -/
def ImgVal.truthy : ImgVal → Bool
  | .emptyDict => false
  | .deletedDict => true
  | .records l => !l.isEmpty
  | .null => false

/-- The observable mutable state of a run: the audit trail of commands that
were actually executed, and the `results` fields the claims talk about. -/
structure PState where
  trace : List Cmd
  changed : Bool
  image : ImgVal
  stdoutTxt : Str
  actionsN : Nat
deriving DecidableEq, Repr

/-- `results` as initialised in `main()`: `changed=False`, `image={}`,
`stdout=''`, empty action lists. -/
def initState : PState :=
  { trace := [], changed := false, image := .emptyDict, stdoutTxt := [], actionsN := 0 }

/-- Execute one podman command (a `run_podman_command` call). -/
def runCmd (c : Cmd) (st : PState) : PState :=
  { st with trace := st.trace ++ [c] }

/-- Truthiness of a local `image` variable (a parsed record list or `None`). -/
def truthyImg : Option (List PRec) → Bool
  | some (_ :: _) => true
  | _ => false

/-- An `image`/`None` value assigned into `results['image']`. -/
def imgOf : Option (List PRec) → ImgVal
  | none => .null
  | some l => .records l

/-- `inspect_image`: runs `inspect <name> --format json`; the module fails
(`none`) on a non-zero exit or undecodable JSON; an empty array yields
Python `None`. -/
def inspect_image (env : Env) (st : PState) : Option (Option (List PRec) × PState) :=
  let st1 := runCmd .inspectCmd st
  if env.inspectOk then
    some (if env.inspectJson.isEmpty then none else some env.inspectJson, st1)
  else none

/-- `_is_target_arch`: `arch and inspect_json[0]['Architecture'] == arch`.
`none` models the TypeError/IndexError when `arch` is set but the inspection
payload is `None` or empty. -/
def is_target_arch (ij : Option (List PRec)) (arch : Option Str) : Option Bool :=
  match arch with
  | none => some false
  | some a =>
    match ij with
    | none => none
    | some [] => none
    | some (r :: _) => some (decide (r.architecture = a))

/-- The tail of `find_image` (lines 607-609): the architecture filter and
the final `images or inspect_json`. -/
def find_image_tail (arch : Option Str) (images : List PRec)
    (ij : Option (List PRec)) (st : PState) : Option (Option (List PRec) × PState) :=
  match is_target_arch ij arch with
  | none => none
  | some b =>
    if b || arch.isNone then
      some (if images.isEmpty then ij else some images, st)
    else some (none, st)

/-- `find_image`: the layered `image ls` → `image exists` → `inspect` lookup
with the architecture filter (lines 589-609). -/
def find_image (env : Env) (arch : Option Str) (st : PState) :
    Option (Option (List PRec) × PState) :=
  let st1 := runCmd .imageLs st
  if env.lsOk then
    if env.lsImages.isEmpty then
      let st2 := runCmd .imageExists st1
      if env.existsRc0 then
        match inspect_image env st2 with
        | none => none
        | some (ij, st3) => find_image_tail arch env.lsImages ij st3
      else some (none, st2)
    else
      match inspect_image env st1 with
      | none => none
      | some (ij, st3) => find_image_tail arch env.lsImages ij st3
  else none

/-- Strip a leading "sha256:" marker from a candidate identifier line. -/
def stripSha256 (c : Str) : Str :=
  if startsList (str "sha256:") c then c.drop (str "sha256:").length else c

/-- `find_image_id` (lines 614-625): truncate the image name at the first
`:`; scan `image ls --quiet --no-trunc` output for a candidate starting with
it. Runs with `ignore_errors`, so it never aborts. -/
def find_image_id (env : Env) (imageName : Str) (st : PState) : Option Str × PState :=
  let image_id := imageName.takeWhile (fun c => c ≠ ':')
  let st1 := runCmd .imageLsQuiet st
  let candidates := (splitlines env.lsQuietRaw).map stripSha256
  (if candidates.any (fun c => startsList image_id c) then some image_id else none, st1)

/-- `pull_image`: run `pull`; the module fails on a non-zero exit; otherwise
inspect the identifier the tool printed. -/
def pull_image (env : Env) (st : PState) : Option (Option (List PRec) × PState) :=
  let st1 := runCmd .pullCmd st
  if env.pullRc0 then inspect_image env st1 else none

/-- `build_image`: run `build`; fail on a non-zero exit; extract the last id
from the log (`_get_id_from_output` with marker "-->") and inspect it.
Returns the inspection records and the captured log. -/
def build_image (env : Env) (st : PState) : Option ((Option (List PRec) × Str) × PState) :=
  let st1 := runCmd .buildCmd st
  if env.buildRc0 then
    match getIdFromOutput env.buildOut (some (str "-->")) none ' ' with
    | none => none
    | some _lastId =>
      match inspect_image env st1 with
      | none => none
      | some (ij, st2) => some ((ij, env.buildOut), st2)
  else none

/-- `push_image` (lines 742-835): compute and validate the destination, mark
an action and `changed=True` unconditionally, actually push only outside
check mode (failing on a non-zero exit), then inspect the image. The second
component is the captured push output (`''` in check mode). -/
def push_image (env : Env) (p : Params) (st : PState) :
    Option ((Option (List PRec) × Str) × PState) :=
  let ds := dest_string_of p.pushDest p.pushTransport p.name p.tag p.imageName
  if destInvalid ds then none
  else
    let st1 := { st with actionsN := st.actionsN + 1, changed := true }
    if p.checkMode then
      match inspect_image env st1 with
      | none => none
      | some (ij, st2) => some ((ij, []), st2)
    else
      let st2 := runCmd .pushCmd st1
      if env.pushRc0 then
        match inspect_image env st2 with
        | none => none
        | some (ij, st3) => some ((ij, env.pushOut), st3)
      else none

/-- `remove_image` / `remove_image_id`: run `rmi`; fail on a non-zero exit. -/
def remove_image (env : Env) (st : PState) : Option PState :=
  let st1 := runCmd .rmiCmd st
  if env.rmiRc0 then some st1 else none

/-- `digest_before` (lines 528-531): `None` when no image was found,
otherwise the first record's digest; `none` models the IndexError on an
empty record list. -/
def digestBefore : Option (List PRec) → Option (Option Str)
  | none => some none
  | some [] => none
  | some (r :: _) => some (getDigest r)

/-- The mutation step of `present` (lines 534-550): build when the state is
`build` or a path is configured (failing when neither a path nor a build
file is available), otherwise pull; both are skipped in check mode, leaving
the found image unchanged. -/
def mutateStep (env : Env) (p : Params) (image0 : Option (List PRec)) (st : PState) :
    Option (Option (List PRec) × PState) :=
  if p.state = .build ∨ p.path.isSome then
    if p.path.isNone ∧ p.buildFile.isNone then none
    else
      let st1 := { st with actionsN := st.actionsN + 1 }
      if p.checkMode then some (image0, st1)
      else
        match build_image env st1 with
        | none => none
        | some ((ij, outTxt), st2) =>
          some (ij, { st2 with image := imgOf ij, stdoutTxt := outTxt })
  else
    let st1 := { st with actionsN := st.actionsN + 1 }
    if p.checkMode then some (image0, st1)
    else
      match pull_image env st1 with
      | none => none
      | some (ij, st2) => some (ij, { st2 with image := imgOf ij })

/-- The tail of `present` (lines 560-564): the optional push, then the final
`results['image']` assignment. -/
def presentTail (env : Env) (p : Params) (image : Option (List PRec)) (st : PState) :
    Option PState :=
  let afterPush : Option PState :=
    if p.pushReq then
      match push_image env p st with
      | none => none
      | some ((ij, outTxt), st1) =>
        some { st1 with image := imgOf ij, stdoutTxt := st1.stdoutTxt ++ '\n' :: outTxt }
    else some st
  match afterPush with
  | none => none
  | some st1 =>
    if truthyImg image && !st1.image.truthy then some { st1 with image := imgOf image }
    else some st1

/-- `present` (lines 525-564): locate, record the digest, mutate when the
image is missing or `force` is set, re-locate when the mutation returned
nothing, derive `changed` from the digest comparison (unconditionally true
in check mode), then the push/result tail. -/
def present (env : Env) (p : Params) (st : PState) : Option PState :=
  match find_image env p.arch st with
  | none => none
  | some (image0, st1) =>
    match digestBefore image0 with
    | none => none
    | some digest_before =>
      if !truthyImg image0 || p.force then
        match mutateStep env p image0 st1 with
        | none => none
        | some (image1, st2) =>
          match (if truthyImg image1 then some (image1, st2)
                 else find_image env p.arch st2) with
          | none => none
          | some (image2, st3) =>
            if p.checkMode then
              presentTail env p image2 { st3 with changed := true }
            else
              match (match image2 with
                     | none => none
                     | some l => digestBefore (some l)) with
              | none => none
              | some digest_after =>
                presentTail env p image2
                  { st3 with changed := decide (digest_before ≠ digest_after) }
      else presentTail env p image0 st1

/-- `absent` (lines 566-582): locate by name and by bare identifier; when
either is found, record the action, mark `changed`, stamp the deletion into
`results['image']`, and remove outside check mode. -/
def absent (env : Env) (p : Params) (st : PState) : Option PState :=
  match find_image env p.arch st with
  | none => none
  | some (image0, st1) =>
    let (imageId, st2) := find_image_id env p.imageName st1
    if truthyImg image0 then
      let st3 := { st2 with actionsN := st2.actionsN + 1, changed := true, image := ImgVal.deletedDict }
      if p.checkMode then some st3 else remove_image env st3
    else if optTruthy imageId then
      let st3 := { st2 with actionsN := st2.actionsN + 1, changed := true, image := ImgVal.deletedDict }
      if p.checkMode then some st3 else remove_image env st3
    else some st2

/-- The dispatch of `__init__` (lines 491-495) on the desired state, started
from the `results` dictionary `main()` builds. -/
def runModule (env : Env) (p : Params) : Option PState :=
  match p.state with
  | .present => present env p initState
  | .build => present env p initState
  | .absent => absent env p initState

/-- The mutating commands: the claims assert these never run in lookup-only
or check-mode flows. -/
def mutCmd (c : Cmd) : Prop :=
  c = Cmd.pullCmd ∨ c = Cmd.buildCmd ∨ c = Cmd.pushCmd ∨ c = Cmd.rmiCmd

/-! Concrete example data used by witnesses. -/

def recW : PRec :=
  { architecture := str "amd64", digestCap := some (str "sha256:aa"), digestLow := none }

def envFound : Env :=
  { lsOk := true, lsImages := [recW], existsRc0 := true, inspectOk := true,
    inspectJson := [recW], pullRc0 := true, buildRc0 := true,
    buildOut := str "--> abc", pushRc0 := true, pushOut := [], rmiRc0 := true,
    lsQuietRaw := [] }

def envNotFound : Env :=
  { lsOk := true, lsImages := [], existsRc0 := false, inspectOk := true,
    inspectJson := [], pullRc0 := true, buildRc0 := true,
    buildOut := str "--> abc", pushRc0 := true, pushOut := [], rmiRc0 := true,
    lsQuietRaw := [] }

def pPresent : Params :=
  { name := str "nginx", tag := str "latest", state := DesiredState.present,
    force := false, pushReq := false, path := none, buildFile := none,
    checkMode := false, arch := none, pushDest := none, pushTransport := none }

def pCheck : Params :=
  { pPresent with checkMode := true }

def stAfterFind : PState :=
  { trace := [Cmd.imageLs, Cmd.inspectCmd], changed := false, image := ImgVal.emptyDict,
    stdoutTxt := [], actionsN := 0 }

def stNotFound : PState :=
  { trace := [Cmd.imageLs, Cmd.imageExists], changed := false, image := ImgVal.emptyDict,
    stdoutTxt := [], actionsN := 0 }

def stC5 : PState :=
  { trace := [Cmd.imageLs, Cmd.imageExists, Cmd.imageLs, Cmd.imageExists], changed := true,
    image := ImgVal.emptyDict, stdoutTxt := [], actionsN := 1 }

/-! ## Lemmas about the string utilities -/

theorem startsList_iff (p : Str) : ∀ s : Str, startsList p s = true ↔ ∃ t, s = p ++ t := by
  induction p with
  | nil => intro s; simp [startsList]
  | cons a as ih =>
    intro s
    cases s with
    | nil => simp [startsList]
    | cons b bs =>
      simp only [startsList, Bool.and_eq_true, beq_iff_eq, ih, List.cons_append,
        List.cons.injEq]
      constructor
      · rintro ⟨rfl, t, rfl⟩; exact ⟨t, rfl, rfl⟩
      · rintro ⟨t, rfl, rfl⟩; exact ⟨rfl, t, rfl⟩

theorem isSub_iff (nd : Str) : ∀ hay : Str, isSub nd hay = true ↔ ∃ u v, hay = u ++ nd ++ v := by
  intro hay
  induction hay with
  | nil =>
    simp only [isSub, List.isEmpty_iff]
    constructor
    · rintro rfl; exact ⟨[], [], rfl⟩
    · rintro ⟨u, v, h⟩
      exact (List.append_eq_nil.mp (List.append_eq_nil.mp h.symm).1).2
  | cons c cs ih =>
    simp only [isSub, Bool.or_eq_true, startsList_iff, ih]
    constructor
    · rintro (⟨t, ht⟩ | ⟨u, v, hv⟩)
      · exact ⟨[], t, by simpa using ht⟩
      · exact ⟨c :: u, v, by simp [hv]⟩
    · rintro ⟨u, v, h⟩
      cases u with
      | nil => exact Or.inl ⟨v, by simpa using h⟩
      | cons x xs =>
        simp only [List.cons_append, List.cons.injEq] at h
        exact Or.inr ⟨xs, v, h.2⟩

theorem rsplitOnce_eq_none (c : Char) : ∀ s : Str, rsplitOnce c s = none ↔ c ∉ s := by
  intro s
  induction s with
  | nil => simp [rsplitOnce]
  | cons a as ih =>
    simp only [rsplitOnce]
    cases h : rsplitOnce c as with
    | some p =>
      have hmem : c ∈ as := by
        by_contra hn
        rw [← ih] at hn
        rw [h] at hn
        exact (Option.some_ne_none p) hn
      simp [List.mem_cons, hmem]
    | none =>
      have hcs : c ∉ as := ih.mp h
      by_cases hac : a = c
      · simp [hac]
      · constructor
        · intro _ hmem
          rcases List.mem_cons.mp hmem with he | hin
          · exact hac he.symm
          · exact hcs hin
        · intro _
          exact if_neg hac

theorem rsplitOnce_sound (c : Char) :
    ∀ s l r : Str, rsplitOnce c s = some (l, r) → s = l ++ c :: r ∧ c ∉ r := by
  intro s
  induction s with
  | nil => intro l r h; simp [rsplitOnce] at h
  | cons a as ih =>
    intro l r h
    simp only [rsplitOnce] at h
    cases h' : rsplitOnce c as with
    | some p =>
      rw [h'] at h
      obtain ⟨p1, p2⟩ := p
      simp only [Option.some.injEq, Prod.mk.injEq] at h
      obtain ⟨h1, h2⟩ := h
      obtain ⟨hs, hr⟩ := ih p1 p2 h'
      subst h1
      subst h2
      exact ⟨by rw [hs]; rfl, hr⟩
    | none =>
      rw [h'] at h
      by_cases hac : a = c
      · rw [if_pos hac] at h
        simp only [Option.some.injEq, Prod.mk.injEq] at h
        obtain ⟨h1, h2⟩ := h
        subst h1
        subst h2
        exact ⟨by rw [hac]; rfl, (rsplitOnce_eq_none c as).mp h'⟩
      · rw [if_neg hac] at h
        exact absurd h (by simp)

theorem rsplitOnce_append_last (c : Char) (r : Str) (hc : c ∉ r) :
    ∀ l : Str, rsplitOnce c (l ++ c :: r) = some (l, r) := by
  intro l
  induction l with
  | nil =>
    simp [rsplitOnce, (rsplitOnce_eq_none c r).mpr hc]
  | cons a as ih =>
    simp [rsplitOnce, ih]

/-! ## Claim theorems: reference parsing and qualified names -/

/-- C6: the reference parser splits on the rightmost `@` and returns the two
parts immediately when `@` occurs; otherwise it splits on the rightmost `:`
and returns the two parts exactly when the right part contains no `/`;
otherwise the whole string with no tag. It is total, and
parse "redis:4" = ("redis", "4"), parse "host:5000/name" =
("host:5000/name", none). -/
theorem c6_parse_repository_tag :
    (∀ s : Str, '@' ∈ s →
      ∃ l r, s = l ++ '@' :: r ∧ '@' ∉ r ∧ parse_repository_tag s = (l, some r)) ∧
    (∀ s : Str, '@' ∉ s → ':' ∈ s →
      ∃ l r, s = l ++ ':' :: r ∧ ':' ∉ r ∧
        parse_repository_tag s = if '/' ∈ r then (s, none) else (l, some r)) ∧
    (∀ s : Str, '@' ∉ s → ':' ∉ s → parse_repository_tag s = (s, none)) ∧
    parse_repository_tag (str "redis:4") = (str "redis", some (str "4")) ∧
    parse_repository_tag (str "host:5000/name") = (str "host:5000/name", none) := by
  refine ⟨?_, ?_, ?_, by decide, by decide⟩
  · intro s hs
    cases h : rsplitOnce '@' s with
    | none => exact absurd ((rsplitOnce_eq_none '@' s).mp h) (by simp [hs])
    | some p =>
      obtain ⟨l, r⟩ := p
      obtain ⟨h1, h2⟩ := rsplitOnce_sound '@' s l r h
      exact ⟨l, r, h1, h2, by simp [parse_repository_tag, h]⟩
  · intro s h1 h2
    have hA : rsplitOnce '@' s = none := (rsplitOnce_eq_none '@' s).mpr h1
    cases h : rsplitOnce ':' s with
    | none => exact absurd ((rsplitOnce_eq_none ':' s).mp h) (by simp [h2])
    | some p =>
      obtain ⟨l, r⟩ := p
      obtain ⟨hs, hr⟩ := rsplitOnce_sound ':' s l r h
      exact ⟨l, r, hs, hr, by simp [parse_repository_tag, hA, h]⟩
  · intro s h1 h2
    simp [parse_repository_tag, (rsplitOnce_eq_none '@' s).mpr h1,
      (rsplitOnce_eq_none ':' s).mpr h2]

/-- Witness for C6 at the concrete input "a@b". -/
theorem c6_witness :
    ∃ l r, str "a@b" = l ++ '@' :: r ∧ '@' ∉ r ∧
      parse_repository_tag (str "a@b") = (l, some r) :=
  c6_parse_repository_tag.1 (str "a@b") (by decide)

/-- C9: the qualified image reference joins repository and tag with `@`
exactly when the tag contains the substring "sha256" (stated through the
substring decomposition), and with `:` otherwise; "redis" with tag "4"
yields "redis:4". -/
theorem c9_qualified_name :
    (∀ name tag : Str, (∃ u v, tag = u ++ sha256marker ++ v) →
      image_name_of name tag = name ++ '@' :: tag) ∧
    (∀ name tag : Str, (∀ u v, tag ≠ u ++ sha256marker ++ v) →
      image_name_of name tag = name ++ ':' :: tag) ∧
    image_name_of (str "redis") (str "4") = str "redis:4" := by
  refine ⟨?_, ?_, by decide⟩
  · intro name tag h
    have hss : isSub sha256marker tag = true := (isSub_iff sha256marker tag).mpr h
    simp [image_name_of, hss]
  · intro name tag h
    have hss : ¬ isSub sha256marker tag = true := by
      rw [isSub_iff]
      rintro ⟨u, v, hv⟩
      exact h u v hv
    simp [image_name_of, hss]

/-- Witness for C9: a digest-style tag is joined with `@`. -/
theorem c9_witness :
    image_name_of (str "redis") (str "sha256:0123") =
      str "redis" ++ '@' :: str "sha256:0123" :=
  c9_qualified_name.1 (str "redis") (str "sha256:0123") ⟨[], str ":0123", by decide⟩

/-- C10 (amended): for a raw name of the form repo:tag with no `@`, whose
tag part has no `/` and no "sha256" substring, and which does not end in
`:` (the part after the last `:` is non-empty, so the truthiness guard
keeps the parsed tag), qualifying the parsed pair reproduces the raw name. -/
theorem c10_roundtrip (repo tag dflt : Str)
    (hAt : '@' ∉ repo ++ ':' :: tag) (hSl : '/' ∉ tag)
    (hSha : isSub sha256marker tag = false)
    (hNe : tag ≠ []) (hLast : tag.getLast? ≠ some ':') :
    resolveImageName (repo ++ ':' :: tag) dflt = repo ++ ':' :: tag := by
  have hA : rsplitOnce '@' (repo ++ ':' :: tag) = none :=
    (rsplitOnce_eq_none '@' (repo ++ ':' :: tag)).mpr hAt
  by_cases hc : ':' ∈ tag
  · cases h : rsplitOnce ':' tag with
    | none => exact absurd ((rsplitOnce_eq_none ':' tag).mp h) (by simp [hc])
    | some p =>
      obtain ⟨t1, t2⟩ := p
      obtain ⟨htag, ht2⟩ := rsplitOnce_sound ':' tag t1 t2 h
      have ht2ne : t2 ≠ [] := by
        intro he
        subst he
        exact hLast (by rw [htag]; exact List.getLast?_concat t1)
      have hshape : repo ++ ':' :: tag = (repo ++ ':' :: t1) ++ ':' :: t2 := by
        rw [htag]; simp
      have hsplit : rsplitOnce ':' (repo ++ ':' :: tag) = some (repo ++ ':' :: t1, t2) := by
        rw [hshape]
        exact rsplitOnce_append_last ':' t2 ht2 (repo ++ ':' :: t1)
      have hsl2 : '/' ∉ t2 := by
        intro hx
        exact hSl (by rw [htag]; simp [hx])
      have hsha2 : ¬ isSub sha256marker t2 = true := by
        rw [isSub_iff]
        rintro ⟨u, v, hv⟩
        have : isSub sha256marker tag = true := by
          rw [isSub_iff]
          exact ⟨t1 ++ ':' :: u, v, by rw [htag, hv]; simp⟩
        rw [hSha] at this
        exact Bool.false_ne_true this
      have hparse : parse_repository_tag (repo ++ ':' :: tag) = (repo ++ ':' :: t1, some t2) := by
        simp [parse_repository_tag, hA, hsplit, hsl2]
      have htru : optTruthy (some t2) = true := by
        simp [optTruthy, List.isEmpty_iff, ht2ne]
      rw [show resolveImageName (repo ++ ':' :: tag) dflt = image_name_of (repo ++ ':' :: t1) t2 from by
        simp [resolveImageName, hparse, htru]]
      simp [image_name_of, hsha2, htag, List.append_assoc]
  · have hsplit : rsplitOnce ':' (repo ++ ':' :: tag) = some (repo, tag) :=
      rsplitOnce_append_last ':' tag hc repo
    have hparse : parse_repository_tag (repo ++ ':' :: tag) = (repo, some tag) := by
      simp [parse_repository_tag, hA, hsplit, hSl]
    have htru : optTruthy (some tag) = true := by
      simp [optTruthy, List.isEmpty_iff, hNe]
    simp [resolveImageName, hparse, htru, image_name_of, hSha]

/-- C10 counterexample: the raw name "a:b:" is of the form repo:tag with
repo "a" and tag "b:" (no `@`, no `/` or "sha256" in the tag), yet the
parsed tag is empty, so the truthiness guard keeps the raw name and the
configured tag, producing "a:b::latest", which differs from the raw name. -/
theorem c10_counterexample :
    ('@' ∉ str "a:b:" ∧ '/' ∉ str "b:" ∧ isSub sha256marker (str "b:") = false ∧
      str "a:b:" = str "a" ++ ':' :: str "b:") ∧
    resolveImageName (str "a:b:") (str "latest") = str "a:b::latest" ∧
    str "a:b::latest" ≠ str "a:b:" := by
  exact ⟨by decide, by decide, by decide⟩

/-- Witness for C10 at "redis" / "4". -/
theorem c10_witness :
    resolveImageName (str "redis" ++ ':' :: str "4") (str "latest") =
      str "redis" ++ ':' :: str "4" :=
  c10_roundtrip (str "redis") (str "4") (str "latest") (by decide) (by decide) (by decide)
    (by decide) (by decide)

/-! ## Claim theorems: push destination resolution -/

/-- C7: the push destination base is the user dest (or the qualified
reference when absent), suffixed with /name:tag when the qualified
reference has no slash and with /qualified-reference otherwise; the
spec example evaluates to "quay.io/acme/nginx:4". -/
theorem c7_compute_dest :
    (∀ d name tag iname : Str, '/' ∉ iname →
      compute_dest (some d) name tag iname = d ++ '/' :: (name ++ ':' :: tag)) ∧
    (∀ d name tag iname : Str, '/' ∈ iname →
      compute_dest (some d) name tag iname = d ++ '/' :: iname) ∧
    (∀ name tag iname : Str, '/' ∉ iname →
      compute_dest none name tag iname = iname ++ '/' :: (name ++ ':' :: tag)) ∧
    (∀ name tag iname : Str, '/' ∈ iname →
      compute_dest none name tag iname = iname ++ '/' :: iname) ∧
    compute_dest (some (str "quay.io/acme")) (str "nginx") (str "4")
      (image_name_of (str "nginx") (str "4")) = str "quay.io/acme/nginx:4" := by
  refine ⟨?_, ?_, ?_, ?_, by decide⟩
  · intro a b c d h; simp [compute_dest, h]
  · intro a b c d h; simp [compute_dest, h]
  · intro a b c h; simp [compute_dest, h]
  · intro a b c h; simp [compute_dest, h]

/-- Witness for C7 at the spec example's components. -/
theorem c7_witness :
    compute_dest (some (str "quay.io/acme")) (str "nginx") (str "4") (str "nginx:4") =
      str "quay.io/acme" ++ '/' :: (str "nginx" ++ ':' :: str "4") :=
  c7_compute_dest.1 (str "quay.io/acme") (str "nginx") (str "4") (str "nginx:4") (by decide)

/-- C8: transport wrapping: docker and ostree use their templates, any other
transport prepends "transport:", docker-daemon additionally appends
":latest" when the computed destination has no colon, and no transport
leaves the destination verbatim. -/
theorem c8_apply_transport :
    (∀ name dest : Str,
      apply_transport (some (str "docker")) name dest = str "docker" ++ str "://" ++ dest) ∧
    (∀ name dest : Str,
      apply_transport (some (str "ostree")) name dest =
        str "ostree" ++ ':' :: name ++ '@' :: dest) ∧
    (∀ t name dest : Str, t ≠ [] → t ≠ str "docker" → t ≠ str "ostree" →
      ¬(t = dockerDaemon ∧ ':' ∉ dest) →
      apply_transport (some t) name dest = t ++ ':' :: dest) ∧
    (∀ name dest : Str, ':' ∉ dest →
      apply_transport (some dockerDaemon) name dest =
        dockerDaemon ++ ':' :: dest ++ str ":latest") ∧
    (∀ name dest : Str, apply_transport none name dest = dest) := by
  refine ⟨?_, ?_, ?_, ?_, ?_⟩
  · intro name dest
    have h1 : optTruthy (some (str "docker")) = true := by decide
    simp [apply_transport, h1]
  · intro name dest
    have h1 : optTruthy (some (str "ostree")) = true := by decide
    have h2 : str "ostree" ≠ str "docker" := by decide
    simp [apply_transport, h1, h2]
  · intro t name dest ht0 ht1 ht2 ht3
    have h1 : optTruthy (some t) = true := by
      cases t with
      | nil => exact absurd rfl ht0
      | cons c cs => simp [optTruthy]
    simp [apply_transport, h1, ht1, ht2, ht3]
  · intro name dest h
    have h1 : optTruthy (some dockerDaemon) = true := by decide
    have h2 : dockerDaemon ≠ str "docker" := by decide
    have h3 : dockerDaemon ≠ str "ostree" := by decide
    simp [apply_transport, h1, h2, h3, h]
  · intro name dest
    simp [apply_transport, optTruthy]

/-- Witness for C8: the docker-daemon ":latest" rule at a concrete input. -/
theorem c8_witness :
    apply_transport (some dockerDaemon) (str "n") (str "d") =
      dockerDaemon ++ ':' :: str "d" ++ str ":latest" :=
  c8_apply_transport.2.2.2.1 (str "n") (str "d") (by decide)

/-- C2 counterexample: a bare user destination "badtarget" with no transport
is NOT rejected: the suffixing step turns it into "badtarget/nginx:latest",
which passes the validation test, and the push proceeds. -/
theorem c2_counterexample :
    dest_string_of (some (str "badtarget")) none (str "nginx") (str "latest")
        (image_name_of (str "nginx") (str "latest")) = str "badtarget/nginx:latest" ∧
    destInvalid (str "badtarget/nginx:latest") = false ∧
    (push_image
      { lsOk := true, lsImages := [], existsRc0 := true, inspectOk := true,
        inspectJson := [{ architecture := str "amd64", digestCap := some (str "sha256:aa"),
                          digestLow := none }],
        pullRc0 := true, buildRc0 := true, buildOut := [], pushRc0 := true,
        pushOut := [], rmiRc0 := true, lsQuietRaw := [] }
      { name := str "nginx", tag := str "latest", state := DesiredState.present,
        force := false, pushReq := true, path := none, buildFile := none,
        checkMode := false, arch := none, pushDest := some (str "badtarget"),
        pushTransport := none }
      initState).isSome = true := by
  refine ⟨by decide, by decide, by decide⟩

/-- C2 (amended): the destination validation can never fail, because the
name/tag suffixing step always inserts a `/` (and the ostree template an
`@`), so every computed destination passes the test; in particular a bare
destination is accepted rather than rejected. -/
theorem c2_amended_validation_unreachable (destArg transport : Option Str)
    (name tag iname : Str) :
    destInvalid (dest_string_of destArg transport name tag iname) = false := by
  have hs : '/' ∈ compute_dest destArg name tag iname := by
    unfold compute_dest
    split_ifs <;> simp
  have key : ∀ ds : Str, '/' ∈ ds ∨ '@' ∈ ds → destInvalid ds = false := by
    intro ds h
    rcases h with h | h <;> simp [destInvalid, h]
  have happ : ∀ tr nm d, '/' ∈ d →
      '/' ∈ apply_transport tr nm d ∨ '@' ∈ apply_transport tr nm d := by
    intro tr nm d hd
    unfold apply_transport
    by_cases h1 : optTruthy tr = true
    · simp only [h1, if_true]
      by_cases h2 : tr.getD [] = str "docker"
      · left; simp [h2, List.mem_append, hd]
      · by_cases h3 : tr.getD [] = str "ostree"
        · right
          have hne : str "ostree" ≠ str "docker" := by decide
          simp [h2, h3, hne, List.mem_append, List.mem_cons]
        · by_cases h4 : tr.getD [] = dockerDaemon ∧ ':' ∉ d
          · left
            have hne1 : dockerDaemon ≠ str "docker" := by decide
            have hne2 : dockerDaemon ≠ str "ostree" := by decide
            simp [h4.1, hne1, hne2, h4.2, List.mem_append, List.mem_cons, hd]
          · left; simp [h2, h3, h4, List.mem_append, List.mem_cons, hd]
    · left
      simp only [h1, if_false]
      simpa using hd
  unfold dest_string_of
  exact key _ (happ transport name _ hs)

/-! ## Claim theorems: build-log scanning -/

theorem rsplitGet1_isSome (sep : Char) (l : Str) (h : sep ∈ l) :
    ∃ tok, rsplitGet1 sep l = some tok := by
  cases hh : rsplitOnce sep l with
  | none => exact absurd ((rsplitOnce_eq_none sep l).mp hh) (by simp [h])
  | some p => exact ⟨p.2, by simp [rsplitGet1, hh]⟩

theorem collectIds_spec (sep : Char) :
    ∀ ms : List Str, (∀ l ∈ ms, sep ∈ l) →
      ∃ ids, collectIds sep ms = some ids ∧ ids.length = ms.length ∧
        ids.getLast? = ms.getLast?.bind (rsplitGet1 sep) := by
  intro ms
  induction ms with
  | nil => intro _; exact ⟨[], rfl, rfl, rfl⟩
  | cons l ls ih =>
    intro h
    obtain ⟨tok, htok⟩ := rsplitGet1_isSome sep l (h l (by simp))
    obtain ⟨ids, h1, h2, h3⟩ := ih (fun x hx => h x (by simp [hx]))
    refine ⟨tok :: ids, by simp [collectIds, htok, h1], by simp [h2], ?_⟩
    cases ls with
    | nil =>
      have hids : ids = [] := List.length_eq_zero.mp (by simpa using h2)
      subst hids
      simp [htok]
    | cons a as =>
      cases ids with
      | nil => simp at h2
      | cons i is =>
        simp only [List.getLast?_cons_cons]
        rw [h3]

/-- C3 (amended): when at least one line matches the marker/substring filter
and every matching line contains the separator, the scanner returns the part
after the last separator of the LAST matching line; when no line matches, it
returns the last element of the splitlines of the log, which can be the
empty string when the log ends in a blank line (not necessarily the last
non-empty line), and fails on an empty log. -/
theorem c3_amended_scan :
    (∀ lines : Str, ∀ sw co : Option Str,
      (splitlines lines).filter (fun l => lineMatches sw co l) = [] →
      getIdFromOutput lines sw co ' ' = (splitlines lines).getLast?) ∧
    (∀ lines : Str, ∀ sw co : Option Str,
      (splitlines lines).filter (fun l => lineMatches sw co l) ≠ [] →
      (∀ l ∈ (splitlines lines).filter (fun l => lineMatches sw co l), ' ' ∈ l) →
      getIdFromOutput lines sw co ' ' =
        ((splitlines lines).filter (fun l => lineMatches sw co l)).getLast?.bind
          (rsplitGet1 ' ')) := by
  constructor
  · intro lines sw co h
    simp [getIdFromOutput, h, collectIds]
  · intro lines sw co hne hsp
    obtain ⟨ids, h1, h2, h3⟩ := collectIds_spec ' ' _ hsp
    have hni : ids.isEmpty = false := by
      cases ids with
      | nil =>
        rw [List.length_nil] at h2
        exact absurd (List.length_eq_zero.mp h2.symm) hne
      | cons i is => rfl
    simp only [getIdFromOutput, h1, hni, Bool.false_eq_true, if_false]
    exact h3

/-- C3 counterexample: with no matching line, the scanner on the log
"id1\n\n" returns the empty final line, not the last non-empty line "id1". -/
theorem c3_counterexample :
    getIdFromOutput (str "id1\n\n") (some (str "-->")) none ' ' = some [] ∧
    ((splitlines (str "id1\n\n")).filter (fun l => !l.isEmpty)).getLast? =
      some (str "id1") := by
  exact ⟨by decide, by decide⟩

/-- Witness for C3 at the spec's example log, via the amended theorem. -/
theorem c3_witness :
    getIdFromOutput (str "-> step1 id1\n--> id2\nother") (some (str "-->")) none ' ' =
      some (str "id2") := by
  have h := c3_amended_scan.2 (str "-> step1 id1\n--> id2\nother") (some (str "-->")) none
      (by decide) (by decide)
  rw [h]
  decide

/-! ## Lemmas about the engine -/

theorem inspect_image_eq (env : Env) (st : PState) :
    inspect_image env st =
      if env.inspectOk then
        some (if env.inspectJson.isEmpty then none else some env.inspectJson,
              { st with trace := st.trace ++ [Cmd.inspectCmd] })
      else none := rfl

theorem inspect_image_state (env : Env) (st : PState) (v : Option (List PRec)) (st' : PState)
    (h : inspect_image env st = some (v, st')) :
    st' = { st with trace := st.trace ++ [Cmd.inspectCmd] } ∧
      v = (if env.inspectJson.isEmpty then none else some env.inspectJson) := by
  rw [inspect_image_eq] at h
  split at h
  · simp only [Option.some.injEq, Prod.mk.injEq] at h
    exact ⟨h.2.symm, h.1.symm⟩
  · exact absurd h (by simp)

theorem find_image_tail_state (a : Option Str) (imgs : List PRec) (ij : Option (List PRec))
    (st : PState) (v : Option (List PRec)) (st' : PState)
    (h : find_image_tail a imgs ij st = some (v, st')) : st' = st := by
  unfold find_image_tail at h
  split at h
  · exact absurd h (by simp)
  · split at h
    · simp only [Option.some.injEq, Prod.mk.injEq] at h
      exact h.2.symm
    · simp only [Option.some.injEq, Prod.mk.injEq] at h
      exact h.2.symm

theorem find_image_trace (env : Env) (a : Option Str) (st : PState)
    (v : Option (List PRec)) (st' : PState)
    (h : find_image env a st = some (v, st')) :
    ∃ tl, st' = { st with trace := st.trace ++ Cmd.imageLs :: tl } ∧
      ∀ c ∈ tl, c = Cmd.imageExists ∨ c = Cmd.inspectCmd := by
  simp only [find_image] at h
  split at h
  · split at h
    · split at h
      · split at h
        · exact absurd h (by simp)
        · next ij st3 heq =>
          obtain ⟨h31, h32⟩ := inspect_image_state _ _ _ _ heq
          have hst := find_image_tail_state _ _ _ _ _ _ h
          refine ⟨[Cmd.imageExists, Cmd.inspectCmd], ?_, by decide⟩
          rw [hst, h31]
          simp [runCmd]
      · simp only [Option.some.injEq, Prod.mk.injEq] at h
        refine ⟨[Cmd.imageExists], ?_, by decide⟩
        rw [← h.2]
        simp [runCmd]
    · split at h
      · exact absurd h (by simp)
      · next ij st3 heq =>
        obtain ⟨h31, h32⟩ := inspect_image_state _ _ _ _ heq
        have hst := find_image_tail_state _ _ _ _ _ _ h
        refine ⟨[Cmd.inspectCmd], ?_, by decide⟩
        rw [hst, h31]
        simp [runCmd]
  · exact absurd h (by simp)

theorem find_image_payload (env : Env) (a : Option Str) (st : PState)
    (v : Option (List PRec)) (st' : PState)
    (h : find_image env a st = some (v, st')) :
    (v = none ∧ env.lsImages.isEmpty = true ∧ env.existsRc0 = false) ∨
    ∃ ij, ij = (if env.inspectJson.isEmpty then none else some env.inspectJson) ∧
      find_image_tail a env.lsImages ij st' = some (v, st') := by
  simp only [find_image] at h
  split at h
  · split at h
    · split at h
      · split at h
        · exact absurd h (by simp)
        · next ij st3 heq =>
          obtain ⟨h31, h32⟩ := inspect_image_state _ _ _ _ heq
          have hst := find_image_tail_state _ _ _ _ _ _ h
          rw [← hst] at h
          exact Or.inr ⟨ij, h32, h⟩
      · next hex =>
        simp only [Option.some.injEq, Prod.mk.injEq] at h
        refine Or.inl ⟨h.1.symm, by assumption, ?_⟩
        cases hx : env.existsRc0 with
        | false => rfl
        | true => exact absurd hx hex
    · split at h
      · exact absurd h (by simp)
      · next ij st3 heq =>
        obtain ⟨h31, h32⟩ := inspect_image_state _ _ _ _ heq
        have hst := find_image_tail_state _ _ _ _ _ _ h
        rw [← hst] at h
        exact Or.inr ⟨ij, h32, h⟩
  · exact absurd h (by simp)

theorem find_image_tail_cases (a : Option Str) (imgs : List PRec) (ij : Option (List PRec))
    (st : PState) (v : Option (List PRec)) (st' : PState)
    (h : find_image_tail a imgs ij st = some (v, st')) :
    (a = none ∧ v = (if imgs.isEmpty then ij else some imgs)) ∨
    (∃ ar r rest, a = some ar ∧ ij = some (r :: rest) ∧
      ((r.architecture = ar ∧ v = (if imgs.isEmpty then ij else some imgs)) ∨
       (¬ r.architecture = ar ∧ v = none))) := by
  unfold find_image_tail at h
  cases a with
  | none =>
    simp only [is_target_arch, Option.isNone_none, Bool.false_or, if_true,
      Option.some.injEq, Prod.mk.injEq] at h
    exact Or.inl ⟨rfl, h.1.symm⟩
  | some ar =>
    cases ij with
    | none => simp [is_target_arch] at h
    | some l =>
      cases l with
      | nil => simp [is_target_arch] at h
      | cons r rest =>
        simp only [is_target_arch, Option.isNone_some, Bool.or_false] at h
        by_cases harch : r.architecture = ar
        · refine Or.inr ⟨ar, r, rest, rfl, rfl, Or.inl ⟨harch, ?_⟩⟩
          rw [if_pos (show decide (r.architecture = ar) = true by simp [harch])] at h
          simp only [Option.some.injEq, Prod.mk.injEq] at h
          exact h.1.symm
        · refine Or.inr ⟨ar, r, rest, rfl, rfl, Or.inr ⟨harch, ?_⟩⟩
          rw [if_neg (show ¬ decide (r.architecture = ar) = true by simp [harch])] at h
          simp only [Option.some.injEq, Prod.mk.injEq] at h
          exact h.1.symm

/-! ## Claim theorems: image locator -/

/-- C4: with a requested architecture the locator returns a record set only
when the first inspected record's architecture equals the request, and
returns null on a mismatch rather than a distinct error; with no requested
architecture it always returns the found records, preferring the listing
payload over the inspection payload. -/
theorem c4_arch_filter :
    (∀ (env : Env) (ar : Str) (st : PState) (v : Option (List PRec)) (st' : PState),
      find_image env (some ar) st = some (v, st') → v ≠ none →
      ∃ r rest, env.inspectJson = r :: rest ∧ r.architecture = ar) ∧
    (∀ (env : Env) (ar : Str) (st : PState) (v : Option (List PRec)) (st' : PState)
      (r : PRec) (rest : List PRec),
      find_image env (some ar) st = some (v, st') →
      env.inspectJson = r :: rest → ¬ r.architecture = ar → v = none) ∧
    (∀ (env : Env) (st : PState) (v : Option (List PRec)) (st' : PState),
      find_image env none st = some (v, st') → env.lsImages ≠ [] →
      v = some env.lsImages) ∧
    (∀ (env : Env) (st : PState) (v : Option (List PRec)) (st' : PState),
      find_image env none st = some (v, st') → env.lsImages = [] →
      env.existsRc0 = true → env.inspectJson ≠ [] → v = some env.inspectJson) := by
  refine ⟨?_, ?_, ?_, ?_⟩
  · intro env ar st v st' h hv
    rcases find_image_payload _ _ _ _ _ h with ⟨h1, _, _⟩ | ⟨ij, hij, htail⟩
    · exact absurd h1 hv
    · rcases find_image_tail_cases _ _ _ _ _ _ htail with ⟨ha, _⟩ |
        ⟨ar', r, rest, ha, hij2, hcase⟩
      · exact absurd ha (by simp)
      · have har : ar' = ar := by
          have := ha.symm
          injection this with hx
        subst har
        rw [hij] at hij2
        by_cases hj : env.inspectJson.isEmpty = true
        · rw [if_pos hj] at hij2
          exact absurd hij2 (by simp)
        · rw [if_neg hj] at hij2
          have hjson : env.inspectJson = r :: rest := by
            injection hij2 with hx
          rcases hcase with ⟨harc, _⟩ | ⟨_, hv2⟩
          · exact ⟨r, rest, hjson, harc⟩
          · exact absurd hv2 hv
  · intro env ar st v st' r rest h hjson harch
    rcases find_image_payload _ _ _ _ _ h with ⟨h1, _, _⟩ | ⟨ij, hij, htail⟩
    · exact h1
    · rcases find_image_tail_cases _ _ _ _ _ _ htail with ⟨ha, _⟩ |
        ⟨ar', r', rest', ha, hij2, hcase⟩
      · exact absurd ha (by simp)
      · have har : ar' = ar := by
          have := ha.symm
          injection this with hx
        subst har
        rw [hij, hjson] at hij2
        have hje : (r :: rest).isEmpty = false := rfl
        rw [hje] at hij2
        simp only [Bool.false_eq_true, if_false, Option.some.injEq] at hij2
        have hr : r' = r := by
          have := hij2.symm
          rw [List.cons.injEq] at this
          exact this.1
        subst hr
        rcases hcase with ⟨harc, _⟩ | ⟨_, hv2⟩
        · exact absurd harc harch
        · exact hv2
  · intro env st v st' h hne
    rcases find_image_payload _ _ _ _ _ h with ⟨_, hemp, _⟩ | ⟨ij, hij, htail⟩
    · exact absurd (List.isEmpty_iff.mp hemp) hne
    · rcases find_image_tail_cases _ _ _ _ _ _ htail with ⟨_, hv⟩ |
        ⟨ar', r, rest, ha, _, _⟩
      · rw [hv, if_neg (by simpa [List.isEmpty_iff] using hne)]
      · exact absurd ha (by simp)
  · intro env st v st' h hemp hex hjson
    rcases find_image_payload _ _ _ _ _ h with ⟨_, _, hex2⟩ | ⟨ij, hij, htail⟩
    · rw [hex] at hex2
      exact absurd hex2 (by simp)
    · rcases find_image_tail_cases _ _ _ _ _ _ htail with ⟨_, hv⟩ |
        ⟨ar', r, rest, ha, _, _⟩
      · rw [hv, if_pos (by simp [hemp]), hij,
          if_neg (by simpa [List.isEmpty_iff] using hjson)]
      · exact absurd ha (by simp)

/-- Witness for C4: a matching requested architecture at a concrete lookup. -/
theorem c4_witness :
    ∃ r rest, envFound.inspectJson = r :: rest ∧ r.architecture = str "amd64" :=
  c4_arch_filter.1 envFound (str "amd64") initState (some [recW]) stAfterFind
    (by decide) (by decide)

/-! ## Claim theorems: idempotent present and lookup-only operations -/

/-- C1: with state present, force false and push not requested, a successful
lookup that finds an image makes the run execute no pull, build or remove
command and leave `changed` false; and the lookup operations (find_image,
inspect_image, find_image_id) never modify `changed` in any state. -/
theorem c1_present_idempotent :
    (∀ (env : Env) (p : Params) (recs : List PRec) (st1 : PState),
      p.state = DesiredState.present → p.force = false → p.pushReq = false →
      find_image env p.arch initState = some (some recs, st1) → recs ≠ [] →
      ∃ st', runModule env p = some st' ∧ st'.changed = false ∧
        Cmd.pullCmd ∉ st'.trace ∧ Cmd.buildCmd ∉ st'.trace ∧ Cmd.rmiCmd ∉ st'.trace) ∧
    (∀ (env : Env) (a : Option Str) (st : PState) (out : Option (List PRec) × PState),
      find_image env a st = some out → out.2.changed = st.changed) ∧
    (∀ (env : Env) (st : PState) (out : Option (List PRec) × PState),
      inspect_image env st = some out → out.2.changed = st.changed) ∧
    (∀ (env : Env) (nm : Str) (st : PState),
      (find_image_id env nm st).2.changed = st.changed) := by
  refine ⟨?_, ?_, ?_, ?_⟩
  · intro env p recs st1 h1 h2 h3 h4 h5
    obtain ⟨tl, hst1, htl⟩ := find_image_trace _ _ _ _ _ h4
    cases recs with
    | nil => exact absurd rfl h5
    | cons r rs =>
      subst hst1
      refine ⟨{ trace := Cmd.imageLs :: tl, changed := false,
                image := ImgVal.records (r :: rs), stdoutTxt := [], actionsN := 0 },
        ?_, rfl, ?_, ?_, ?_⟩
      · have hstep : runModule env p = present env p initState := by
          simp [runModule, h1]
        rw [hstep]
        simp only [present, h4]
        simp [digestBefore, truthyImg, h2, presentTail, h3, imgOf, initState,
          ImgVal.truthy]
      · intro hmem
        rcases List.mem_cons.mp hmem with hx | hx
        · exact absurd hx (by decide)
        · rcases htl _ hx with hy | hy <;> exact absurd hy (by decide)
      · intro hmem
        rcases List.mem_cons.mp hmem with hx | hx
        · exact absurd hx (by decide)
        · rcases htl _ hx with hy | hy <;> exact absurd hy (by decide)
      · intro hmem
        rcases List.mem_cons.mp hmem with hx | hx
        · exact absurd hx (by decide)
        · rcases htl _ hx with hy | hy <;> exact absurd hy (by decide)
  · intro env a st out h
    obtain ⟨v, st2⟩ := out
    obtain ⟨tl, hst, _⟩ := find_image_trace _ _ _ _ _ h
    rw [hst]
  · intro env st out h
    obtain ⟨v, st2⟩ := out
    obtain ⟨hst, _⟩ := inspect_image_state _ _ _ _ h
    rw [hst]
  · intro env nm st
    simp [find_image_id, runCmd]

/-- Witness for C1 at a concrete environment where the image is found. -/
theorem c1_witness :
    ∃ st', runModule envFound pPresent = some st' ∧ st'.changed = false ∧
      Cmd.pullCmd ∉ st'.trace ∧ Cmd.buildCmd ∉ st'.trace ∧ Cmd.rmiCmd ∉ st'.trace :=
  c1_present_idempotent.1 envFound pPresent [recW] stAfterFind rfl rfl rfl
    (by decide) (by decide)

/-! ## Check-mode lemmas -/

theorem find_image_id_state (env : Env) (nm : Str) (st : PState) :
    (find_image_id env nm st).2 = { st with trace := st.trace ++ [Cmd.imageLsQuiet] } := by
  simp [find_image_id, runCmd]

theorem mutateStep_check (env : Env) (p : Params) (img : Option (List PRec)) (st : PState)
    (out : Option (List PRec) × PState) (hcm : p.checkMode = true)
    (h : mutateStep env p img st = some out) :
    out = (img, { st with actionsN := st.actionsN + 1 }) := by
  simp only [mutateStep, hcm, eq_self_iff_true, if_true] at h
  split at h
  · split at h
    · exact absurd h (by simp)
    · simp only [Option.some.injEq] at h
      exact h.symm
  · simp only [Option.some.injEq] at h
    exact h.symm

theorem push_image_changed (env : Env) (p : Params) (st : PState)
    (out : (Option (List PRec) × Str) × PState) (h : push_image env p st = some out) :
    out.2.changed = true := by
  simp only [push_image] at h
  split at h
  · exact absurd h (by simp)
  · split at h
    · split at h
      · exact absurd h (by simp)
      · next ij st2 heq =>
        obtain ⟨hst, _⟩ := inspect_image_state _ _ _ _ heq
        simp only [Option.some.injEq] at h
        rw [← h]
        simp [hst]
    · split at h
      · split at h
        · exact absurd h (by simp)
        · next ij st3 heq =>
          obtain ⟨hst, _⟩ := inspect_image_state _ _ _ _ heq
          simp only [Option.some.injEq] at h
          rw [← h]
          simp [hst, runCmd]
      · exact absurd h (by simp)

theorem push_image_check_state (env : Env) (p : Params) (st : PState)
    (out : (Option (List PRec) × Str) × PState) (hcm : p.checkMode = true)
    (h : push_image env p st = some out) :
    out.2 = { st with actionsN := st.actionsN + 1, changed := true, trace := st.trace ++ [Cmd.inspectCmd] } := by
  simp only [push_image, hcm, eq_self_iff_true, if_true] at h
  split at h
  · exact absurd h (by simp)
  · split at h
    · exact absurd h (by simp)
    · next ij st2 heq =>
      obtain ⟨hst, _⟩ := inspect_image_state _ _ _ _ heq
      simp only [Option.some.injEq] at h
      rw [← h]
      simp [hst]

theorem presentTail_trace_check (env : Env) (p : Params) (img : Option (List PRec))
    (st st' : PState) (hcm : p.checkMode = true)
    (h : presentTail env p img st = some st') :
    st'.trace = st.trace ∨ st'.trace = st.trace ++ [Cmd.inspectCmd] := by
  simp only [presentTail] at h
  by_cases hp : p.pushReq = true
  · rw [if_pos hp] at h
    cases hpi : push_image env p st with
    | none => rw [hpi] at h; simp at h
    | some out =>
      rw [hpi] at h
      obtain ⟨⟨ij, o⟩, st1⟩ := out
      have hst1 : st1 = { st with actionsN := st.actionsN + 1, changed := true, trace := st.trace ++ [Cmd.inspectCmd] } := by
        simpa using push_image_check_state _ _ _ _ hcm hpi
      simp only at h
      split at h
      · simp only [Option.some.injEq] at h
        rw [← h, hst1]
        exact Or.inr rfl
      · simp only [Option.some.injEq] at h
        rw [← h, hst1]
        exact Or.inr rfl
  · rw [if_neg hp] at h
    simp only at h
    split at h
    · simp only [Option.some.injEq] at h
      rw [← h]
      exact Or.inl rfl
    · simp only [Option.some.injEq] at h
      rw [← h]
      exact Or.inl rfl

theorem presentTail_changed_true (env : Env) (p : Params) (img : Option (List PRec))
    (st st' : PState) (hch : st.changed = true)
    (h : presentTail env p img st = some st') : st'.changed = true := by
  simp only [presentTail] at h
  by_cases hp : p.pushReq = true
  · rw [if_pos hp] at h
    cases hpi : push_image env p st with
    | none => rw [hpi] at h; simp at h
    | some out =>
      rw [hpi] at h
      obtain ⟨⟨ij, o⟩, st1⟩ := out
      have hch1 : st1.changed = true := push_image_changed _ _ _ _ hpi
      simp only at h
      split at h
      · simp only [Option.some.injEq] at h
        rw [← h]
        simpa using hch1
      · simp only [Option.some.injEq] at h
        rw [← h]
        exact hch1
  · rw [if_neg hp] at h
    simp only at h
    split at h
    · simp only [Option.some.injEq] at h
      rw [← h]
      simpa using hch
    · simp only [Option.some.injEq] at h
      rw [← h]
      exact hch

theorem present_check (env : Env) (p : Params) (st st' : PState)
    (hcm : p.checkMode = true) (h : present env p st = some st') :
    ∃ tl, st'.trace = st.trace ++ Cmd.imageLs :: tl ∧ ∀ c ∈ tl, ¬ mutCmd c := by
  simp only [present] at h
  cases hf : find_image env p.arch st with
  | none => rw [hf] at h; simp at h
  | some out =>
    rw [hf] at h
    obtain ⟨image0, st1⟩ := out
    obtain ⟨tl1, hst1, htl1⟩ := find_image_trace _ _ _ _ _ hf
    have hst1tr : st1.trace = st.trace ++ Cmd.imageLs :: tl1 := by rw [hst1]
    have hmem1 : ∀ c ∈ tl1, ¬ mutCmd c := by
      intro c hc
      rcases htl1 c hc with rfl | rfl <;> simp [mutCmd]
    simp only at h
    cases hd : digestBefore image0 with
    | none => rw [hd] at h; simp at h
    | some db =>
      rw [hd] at h
      simp only at h
      split at h
      · cases hm : mutateStep env p image0 st1 with
        | none => rw [hm] at h; simp at h
        | some out2 =>
          rw [hm] at h
          obtain ⟨image1, st2⟩ := out2
          have hmut := mutateStep_check _ _ _ _ _ hcm hm
          rw [Prod.mk.injEq] at hmut
          obtain ⟨himg1, hst2⟩ := hmut
          simp only at h
          cases hs2 : (if truthyImg image1 = true then some (image1, st2)
                       else find_image env p.arch st2) with
          | none => rw [hs2] at h; simp at h
          | some out3 =>
            rw [hs2] at h
            obtain ⟨image2, st3⟩ := out3
            simp only at h
            have htr := presentTail_trace_check _ _ _ _ _ hcm h
            have hst3 : st3.trace = st1.trace ∨
                ∃ tl2, st3.trace = st1.trace ++ Cmd.imageLs :: tl2 ∧
                  ∀ c ∈ tl2, c = Cmd.imageExists ∨ c = Cmd.inspectCmd := by
              by_cases ht1 : truthyImg image1 = true
              · rw [if_pos ht1] at hs2
                simp only [Option.some.injEq, Prod.mk.injEq] at hs2
                left
                rw [← hs2.2, hst2]
              · rw [if_neg ht1] at hs2
                obtain ⟨tl2, hst3b, htl2⟩ := find_image_trace _ _ _ _ _ hs2
                right
                refine ⟨tl2, ?_, htl2⟩
                rw [hst3b, hst2]
            rcases hst3 with hA | ⟨tl2, hB, htl2⟩
            · rcases htr with htrL | htrR
              · refine ⟨tl1, ?_, hmem1⟩
                rw [htrL]
                simp only []
                rw [hA, hst1tr]
              · refine ⟨tl1 ++ [Cmd.inspectCmd], ?_, ?_⟩
                · rw [htrR]
                  simp only []
                  rw [hA, hst1tr]
                  simp [List.append_assoc]
                · intro c hc
                  rcases List.mem_append.mp hc with hc1 | hc1
                  · exact hmem1 c hc1
                  · rcases List.mem_singleton.mp hc1 with rfl
                    simp [mutCmd]
            · have hmem2 : ∀ c ∈ Cmd.imageLs :: tl2, ¬ mutCmd c := by
                intro c hc
                rcases List.mem_cons.mp hc with rfl | hc1
                · simp [mutCmd]
                · rcases htl2 c hc1 with rfl | rfl <;> simp [mutCmd]
              rcases htr with htrL | htrR
              · refine ⟨tl1 ++ Cmd.imageLs :: tl2, ?_, ?_⟩
                · rw [htrL]
                  simp only []
                  rw [hB, hst1tr]
                  simp [List.append_assoc]
                · intro c hc
                  rcases List.mem_append.mp hc with hc1 | hc1
                  · exact hmem1 c hc1
                  · exact hmem2 c hc1
              · refine ⟨tl1 ++ Cmd.imageLs :: tl2 ++ [Cmd.inspectCmd], ?_, ?_⟩
                · rw [htrR]
                  simp only []
                  rw [hB, hst1tr]
                  simp [List.append_assoc]
                · intro c hc
                  rcases List.mem_append.mp hc with hc1 | hc1
                  · rcases List.mem_append.mp hc1 with hc2 | hc2
                    · exact hmem1 c hc2
                    · exact hmem2 c hc2
                  · rcases List.mem_singleton.mp hc1 with rfl
                    simp [mutCmd]
      · have htr := presentTail_trace_check _ _ _ _ _ hcm h
        rcases htr with htrL | htrR
        · refine ⟨tl1, ?_, hmem1⟩
          rw [htrL, hst1tr]
        · refine ⟨tl1 ++ [Cmd.inspectCmd], ?_, ?_⟩
          · rw [htrR, hst1tr]
            simp [List.append_assoc]
          · intro c hc
            rcases List.mem_append.mp hc with hc1 | hc1
            · exact hmem1 c hc1
            · rcases List.mem_singleton.mp hc1 with rfl
              simp [mutCmd]

theorem absent_check (env : Env) (p : Params) (st st' : PState)
    (hcm : p.checkMode = true) (h : absent env p st = some st') :
    ∃ tl, st'.trace = st.trace ++ Cmd.imageLs :: tl ∧ ∀ c ∈ tl, ¬ mutCmd c := by
  simp only [absent, find_image_id, runCmd, hcm, eq_self_iff_true, if_true] at h
  cases hf : find_image env p.arch st with
  | none => rw [hf] at h; simp at h
  | some out =>
    rw [hf] at h
    obtain ⟨image0, st1⟩ := out
    obtain ⟨tl1, hst1, htl1⟩ := find_image_trace _ _ _ _ _ hf
    have hst1tr : st1.trace = st.trace ++ Cmd.imageLs :: tl1 := by rw [hst1]
    have hmemA : ∀ c ∈ tl1 ++ [Cmd.imageLsQuiet], ¬ mutCmd c := by
      intro c hc
      rcases List.mem_append.mp hc with hc1 | hc1
      · rcases htl1 c hc1 with rfl | rfl <;> simp [mutCmd]
      · rcases List.mem_singleton.mp hc1 with rfl
        simp [mutCmd]
    simp only at h
    split at h
    · simp only [Option.some.injEq] at h
      refine ⟨tl1 ++ [Cmd.imageLsQuiet], ?_, hmemA⟩
      rw [← h]
      simp [hst1tr, List.append_assoc]
    · split at h <;> split at h <;>
        (simp only [Option.some.injEq] at h
         refine ⟨tl1 ++ [Cmd.imageLsQuiet], ?_, hmemA⟩
         rw [← h]
         simp [hst1tr, List.append_assoc])

/-! ## Claim theorems: check mode -/

/-- C5: under check mode the engine never executes a pull, build, push or
remove command while the read-only image listing still runs for real; and
for state present, whenever the mutation branch is entered (no image found
or force set), `changed` is unconditionally true. -/
theorem c5_check_mode :
    (∀ (env : Env) (p : Params) (st' : PState),
      p.checkMode = true → runModule env p = some st' →
      Cmd.pullCmd ∉ st'.trace ∧ Cmd.buildCmd ∉ st'.trace ∧ Cmd.pushCmd ∉ st'.trace ∧
        Cmd.rmiCmd ∉ st'.trace ∧ Cmd.imageLs ∈ st'.trace) ∧
    (∀ (env : Env) (p : Params) (recs0 : Option (List PRec)) (st1 st' : PState),
      p.checkMode = true → p.state = DesiredState.present →
      find_image env p.arch initState = some (recs0, st1) →
      (truthyImg recs0 = false ∨ p.force = true) →
      runModule env p = some st' → st'.changed = true) := by
  constructor
  · intro env p st' hcm hrun
    have hkey : ∃ tl, st'.trace = initState.trace ++ Cmd.imageLs :: tl ∧
        ∀ c ∈ tl, ¬ mutCmd c := by
      cases hps : p.state with
      | present =>
        simp only [runModule, hps] at hrun
        exact present_check _ _ _ _ hcm hrun
      | build =>
        simp only [runModule, hps] at hrun
        exact present_check _ _ _ _ hcm hrun
      | absent =>
        simp only [runModule, hps] at hrun
        exact absent_check _ _ _ _ hcm hrun
    obtain ⟨tl, htr, hnm⟩ := hkey
    have hmemf : ∀ c, mutCmd c → c ∉ st'.trace := by
      intro c hc hmem
      rw [htr] at hmem
      rcases List.mem_append.mp hmem with hc1 | hc1
      · simp [initState] at hc1
      · rcases List.mem_cons.mp hc1 with rfl | hc2
        · exact absurd hc (by simp [mutCmd])
        · exact hnm c hc2 hc
    refine ⟨hmemf _ (Or.inl rfl), hmemf _ (Or.inr (Or.inl rfl)),
      hmemf _ (Or.inr (Or.inr (Or.inl rfl))), hmemf _ (Or.inr (Or.inr (Or.inr rfl))), ?_⟩
    rw [htr]
    simp [initState]
  · intro env p recs0 st1 st' hcm hps hfind hmut hrun
    simp only [runModule, hps] at hrun
    simp only [present] at hrun
    rw [hfind] at hrun
    simp only at hrun
    cases hd : digestBefore recs0 with
    | none => rw [hd] at hrun; simp at hrun
    | some db =>
      rw [hd] at hrun
      simp only at hrun
      have hcond : (!truthyImg recs0 || p.force) = true := by
        rcases hmut with hm | hm
        · rw [hm]; rfl
        · rw [hm]; simp
      rw [if_pos hcond] at hrun
      cases hm2 : mutateStep env p recs0 st1 with
      | none => rw [hm2] at hrun; simp at hrun
      | some out2 =>
        rw [hm2] at hrun
        obtain ⟨image1, st2⟩ := out2
        simp only at hrun
        cases hs2 : (if truthyImg image1 = true then some (image1, st2)
                     else find_image env p.arch st2) with
        | none => rw [hs2] at hrun; simp at hrun
        | some out3 =>
          rw [hs2] at hrun
          obtain ⟨image2, st3⟩ := out3
          simp only at hrun
          rw [if_pos hcm] at hrun
          exact presentTail_changed_true _ _ _ _ _ (by simp) hrun

/-- Witness for C5: in check mode with no image found, the run reports
changed and executes only lookups. -/
theorem c5_witness : stC5.changed = true :=
  c5_check_mode.2 envNotFound pCheck none stNotFound stC5 rfl rfl (by decide)
    (Or.inl (by decide)) (by decide)
